import Mathlib

/-!
# Conceptual x86-64 CPU simulator (`testboot.cpp`)

A shallow embedding of class `CPUSimulatorX86`:

* `size_t` and `uint64_t` values are natural numbers, arithmetic on them is
  taken modulo `WORD = 2 ^ 64`;
* `uint8_t` values are natural numbers (no arithmetic is done on bytes);
* `int` values are integers; the only `int` arithmetic is
  `instructions_executed++`, executed under the guard
  `instructions_executed < max_instructions`, so it cannot overflow;
* `std::vector<uint8_t> memory` is a `List Nat`; `memory[i]` with
  `i ≥ memory.size()` is undefined behaviour in C++ and is an explicit
  `Outcome.outOfRange i` result here;
* what the program prints for each executed instruction (the fetch line and
  the line of `execute_conceptual_instruction`) is kept as one structured
  `TraceEntry`; the line "reached end of simulated memory" is the flag
  `end_of_memory`. The unconditional banner lines carry no information and are
  left out.
-/

namespace CPUSim

/-- Number of values of `size_t` / `uint64_t`. -/
def WORD : Nat := 2 ^ 64

/-- Result of running a piece of the program. -/
inductive Outcome (α : Type) where
  /-- normal completion -/
  | ok (a : α)
  /-- `memory[index]` evaluated with `index ≥ memory.size()` -/
  | outOfRange (index : Nat)
  /-- the model's iteration allowance ran out before the loop was left -/
  | outOfFuel
deriving DecidableEq, Repr

/-- Fields of `class CPUSimulatorX86`. -/
structure CPUSimulatorX86 where
  RIP : Nat
  RAX : Nat
  RBX : Nat
  RCX : Nat
  RDX : Nat
  RSI : Nat
  RDI : Nat
  RBP : Nat
  RSP : Nat
  memory : List Nat
deriving DecidableEq, Repr

/-- Constructor `CPUSimulatorX86(size_t memory_size)`: zeroed memory and registers. -/
def CPUSimulatorX86.construct (memory_size : Nat) : CPUSimulatorX86 :=
  { RIP := 0, RAX := 0, RBX := 0, RCX := 0, RDX := 0, RSI := 0, RDI := 0,
    RBP := 0, RSP := 0, memory := List.replicate memory_size 0 }

/-- The eight general-purpose registers, in declaration order. -/
def CPUSimulatorX86.gpr (cpu : CPUSimulatorX86) : List Nat :=
  [cpu.RAX, cpu.RBX, cpu.RCX, cpu.RDX, cpu.RSI, cpu.RDI, cpu.RBP, cpu.RSP]

/-- The copy loop of `load_into_memory`:
`for (i = ...; i < data.size(); ++i) memory[address + i] = data[i];`
The list argument is `data` from position `i` on. -/
def load_loop (address : Nat) : List Nat → Nat → List Nat → Outcome (List Nat)
  | [], _, memory => .ok memory
  | d :: rest, i, memory =>
    let index := (address + i) % WORD
    if index < memory.length then
      load_loop address rest (i + 1) (memory.set index d)
    else
      .outOfRange index

/-- The guard of `load_into_memory`:
`address < 0 || address + data.size() > memory.size()` on `size_t`. -/
def load_rejects (cpu : CPUSimulatorX86) (data : List Nat) (address : Nat) : Bool :=
  decide (address < 0) || decide ((address + data.length) % WORD > cpu.memory.length)

/-- Method `load_into_memory(data, address)`: the returned `bool` and the object afterwards. -/
def load_into_memory (cpu : CPUSimulatorX86) (data : List Nat) (address : Nat) :
    Outcome (Bool × CPUSimulatorX86) :=
  if load_rejects cpu data address then
    .ok (false, cpu)
  else
    match load_loop address data 0 cpu.memory with
    | .ok m => .ok (true, { cpu with memory := m })
    | .outOfRange i => .outOfRange i
    | .outOfFuel => .outOfFuel

/-- Which line `execute_conceptual_instruction` prints. -/
inductive Decoded where
  /-- "Interpreted as a potential JMP SHORT (0xEB)" -/
  | jmpShort
  /-- "Interpreted as a potential NOP (0x90)" -/
  | nop
  /-- "Interpreting byte $.. as unknown." with the byte printed -/
  | unknown (byte : Nat)
deriving DecidableEq, Repr

/-- A byte is recognized when it did not fall to the final `else`. -/
def Decoded.recognized : Decoded → Bool
  | .jmpShort => true
  | .nop => true
  | .unknown _ => false

/-- Method `execute_conceptual_instruction(opcode_byte)`: the object afterwards and the line printed. -/
def execute_conceptual_instruction (cpu : CPUSimulatorX86) (opcode_byte : Nat) :
    CPUSimulatorX86 × Decoded :=
  if opcode_byte = 0xEB then (cpu, .jmpShort)
  else if opcode_byte = 0x90 then (cpu, .nop)
  else (cpu, .unknown opcode_byte)

/-- What one loop iteration of `run` prints: address, byte, classification. -/
structure TraceEntry where
  address : Nat
  opcode : Nat
  decoded : Decoded
deriving DecidableEq, Repr

/-- State of the loop of `run`. -/
structure RunState where
  cpu : CPUSimulatorX86
  instructions_executed : Int
  trace : List TraceEntry
  end_of_memory : Bool
deriving DecidableEq, Repr

/-- Result of one evaluation of the `while` of `run`. -/
inductive LoopStep where
  /-- the loop is left: guard false, or `break` -/
  | exit (s : RunState)
  /-- the body ran to its end -/
  | next (s : RunState)
  /-- `memory[RIP]` with `RIP ≥ memory.size()` -/
  | outOfRange (index : Nat)
deriving DecidableEq, Repr

/-- One evaluation of `while (instructions_executed < max_instructions) { ... }`. -/
def run_step (max_instructions : Int) (s : RunState) : LoopStep :=
  if s.instructions_executed < max_instructions then
    if s.cpu.RIP ≥ s.cpu.memory.length then
      .exit { s with end_of_memory := true }
    else
      match s.cpu.memory[s.cpu.RIP]? with
      | none => .outOfRange s.cpu.RIP
      | some opcode_byte =>
        let original_rip := s.cpu.RIP
        let fetched := { s.cpu with RIP := (s.cpu.RIP + 1) % WORD }
        let executed := execute_conceptual_instruction fetched opcode_byte
        .next { cpu := executed.1
                instructions_executed := s.instructions_executed + 1
                trace := s.trace ++ [⟨original_rip, opcode_byte, executed.2⟩]
                end_of_memory := s.end_of_memory }
  else
    .exit s

/-- The `while` loop of `run`, with an allowance of loop evaluations. -/
def run_loop (max_instructions : Int) : Nat → RunState → Outcome RunState
  | 0, _ => .outOfFuel
  | fuel + 1, s =>
    match run_step max_instructions s with
    | .exit s' => .ok s'
    | .next s' => run_loop max_instructions fuel s'
    | .outOfRange i => .outOfRange i

/-- Method `run(start_address, max_instructions)` with an allowance of loop evaluations.
Nothing in the `try` block throws, so the `catch` is not modelled. -/
def run_fuel (fuel : Nat) (cpu : CPUSimulatorX86) (start_address : Nat)
    (max_instructions : Int) : Outcome RunState :=
  run_loop max_instructions fuel
    { cpu := { cpu with RIP := start_address }
      instructions_executed := 0
      trace := []
      end_of_memory := false }

/-- Method `run(start_address, max_instructions)`. -/
def run (cpu : CPUSimulatorX86) (start_address : Nat) (max_instructions : Int) :
    Outcome RunState :=
  run_fuel (max_instructions.toNat + 1) cpu start_address max_instructions

/-- The trace entry for a fetch at `address` from `memory` (0 stands for an absent byte). -/
def fetch_entry (memory : List Nat) (address : Nat) : TraceEntry :=
  ⟨address, memory.getD address 0,
    (execute_conceptual_instruction (CPUSimulatorX86.construct 0) (memory.getD address 0)).2⟩

/-- The trace of `k` consecutive fetches starting at `start`. -/
def fetch_trace (memory : List Nat) (start k : Nat) : List TraceEntry :=
  (List.range k).map (fun j => fetch_entry memory (start + j))

/-- Number of loop bodies `run` executes when its loop starts in `s` (closed form). -/
def loop_count (max_instructions : Int) (s : RunState) : Nat :=
  min (max_instructions - s.instructions_executed).toNat (s.cpu.memory.length - s.cpu.RIP)

/-- The state in which the loop of `run` is left when it starts in `s` (closed form). -/
def loop_result (max_instructions : Int) (s : RunState) : RunState :=
  { cpu := { s.cpu with RIP := s.cpu.RIP + loop_count max_instructions s }
    instructions_executed := s.instructions_executed + (loop_count max_instructions s : Nat)
    trace := s.trace ++ fetch_trace s.cpu.memory s.cpu.RIP (loop_count max_instructions s)
    end_of_memory := s.end_of_memory ||
      decide (s.cpu.memory.length - s.cpu.RIP < (max_instructions - s.instructions_executed).toNat) }

/-- Number of instructions `run(start_address, max_instructions)` executes (closed form). -/
def run_count (cpu : CPUSimulatorX86) (start_address : Nat) (max_instructions : Int) : Nat :=
  min max_instructions.toNat (cpu.memory.length - start_address)

/-- The state in which `run(start_address, max_instructions)` ends (closed form). -/
def run_result (cpu : CPUSimulatorX86) (start_address : Nat) (max_instructions : Int) :
    RunState :=
  { cpu := { cpu with RIP := start_address + run_count cpu start_address max_instructions }
    instructions_executed := (run_count cpu start_address max_instructions : Nat)
    trace := fetch_trace cpu.memory start_address (run_count cpu start_address max_instructions)
    end_of_memory := decide (cpu.memory.length - start_address < max_instructions.toNat) }

/-- The number of handler invocations as the specification words it:
`min(max(n, 0), c - s)` if `s ≤ c`, and 0 otherwise. -/
def spec_count (c s : Nat) (n : Int) : Nat :=
  if s ≤ c then min (max n 0).toNat (c - s) else 0

/-! ## The handler -/

theorem execute_fst (cpu : CPUSimulatorX86) (b : Nat) :
    (execute_conceptual_instruction cpu b).1 = cpu := by
  unfold execute_conceptual_instruction
  split_ifs <;> rfl

theorem execute_snd (cpu cpu' : CPUSimulatorX86) (b : Nat) :
    (execute_conceptual_instruction cpu b).2 = (execute_conceptual_instruction cpu' b).2 := by
  unfold execute_conceptual_instruction
  split_ifs <;> rfl

/-! ## One loop evaluation -/

theorem run_step_guard (max_instructions : Int) (s : RunState)
    (h : ¬ s.instructions_executed < max_instructions) :
    run_step max_instructions s = .exit s := by
  unfold run_step
  rw [if_neg h]

theorem run_step_break (max_instructions : Int) (s : RunState)
    (h : s.instructions_executed < max_instructions)
    (hr : s.cpu.memory.length ≤ s.cpu.RIP) :
    run_step max_instructions s = .exit { s with end_of_memory := true } := by
  unfold run_step
  rw [if_pos h, if_pos (by exact hr)]

theorem run_step_body (max_instructions : Int) (s : RunState)
    (h : s.instructions_executed < max_instructions)
    (hr : s.cpu.RIP < s.cpu.memory.length) (hw : s.cpu.memory.length < WORD) :
    run_step max_instructions s = .next
      { cpu := { s.cpu with RIP := s.cpu.RIP + 1 }
        instructions_executed := s.instructions_executed + 1
        trace := s.trace ++ [fetch_entry s.cpu.memory s.cpu.RIP]
        end_of_memory := s.end_of_memory } := by
  unfold run_step
  rw [if_pos h, if_neg (by omega)]
  have hm : (s.cpu.RIP + 1) % WORD = s.cpu.RIP + 1 := Nat.mod_eq_of_lt (by omega)
  have hd : s.cpu.memory.getD s.cpu.RIP 0 = s.cpu.memory[s.cpu.RIP] := by
    simp [List.getD_eq_getElem?_getD, List.getElem?_eq_getElem hr]
  simp only [List.getElem?_eq_getElem hr, hm, execute_fst, fetch_entry, hd]
  rw [execute_snd _ (CPUSimulatorX86.construct 0)]

/-! ## The loop -/

theorem fetch_trace_succ (memory : List Nat) (start k : Nat) :
    fetch_trace memory start (k + 1)
      = fetch_entry memory start :: fetch_trace memory (start + 1) k := by
  unfold fetch_trace
  rw [List.range_succ_eq_map]
  simp only [List.map_cons, List.map_map, Nat.add_zero]
  congr 1
  apply List.map_congr_left
  intro j _
  simp only [Function.comp, Nat.succ_eq_add_one]
  congr 1
  omega

theorem run_loop_closed (max_instructions : Int) : ∀ (fuel : Nat) (s : RunState),
    s.cpu.memory.length < WORD →
    (max_instructions - s.instructions_executed).toNat < fuel →
    run_loop max_instructions fuel s = .ok (loop_result max_instructions s) := by
  intro fuel
  induction fuel with
  | zero => intro s _ h; omega
  | succ fuel ih =>
    intro s hw hf
    unfold run_loop
    by_cases hg : s.instructions_executed < max_instructions
    · by_cases hr : s.cpu.RIP < s.cpu.memory.length
      · rw [run_step_body _ _ hg hr hw]
        simp only
        rw [ih _ (by simpa using hw) (by simp only; omega)]
        congr 1
        have hk : min (max_instructions - s.instructions_executed).toNat
            (s.cpu.memory.length - s.cpu.RIP)
            = min (max_instructions - (s.instructions_executed + 1)).toNat
                (s.cpu.memory.length - (s.cpu.RIP + 1)) + 1 := by omega
        unfold loop_result loop_count
        simp only [hk, fetch_trace_succ, List.append_assoc, List.singleton_append]
        have he : decide (s.cpu.memory.length - (s.cpu.RIP + 1)
              < (max_instructions - (s.instructions_executed + 1)).toNat)
            = decide (s.cpu.memory.length - s.cpu.RIP
              < (max_instructions - s.instructions_executed).toNat) := by
          apply Bool.decide_congr
          omega
        rw [he]
        congr 1
        · congr 1
          omega
        · push_cast
          ring
      · rw [run_step_break _ _ hg (by omega)]
        simp only
        congr 1
        have hk : min (max_instructions - s.instructions_executed).toNat
            (s.cpu.memory.length - s.cpu.RIP) = 0 := by omega
        have : s.cpu.memory.length - s.cpu.RIP
            < (max_instructions - s.instructions_executed).toNat := by omega
        unfold loop_result loop_count
        simp [hk, fetch_trace, this]
    · rw [run_step_guard _ _ hg]
      simp only
      congr 1
      have hk : (max_instructions - s.instructions_executed).toNat = 0 := by omega
      unfold loop_result loop_count
      simp [hk, fetch_trace]

/-- What holds of the loop without any assumption on sizes: it is left normally, with
at most the remaining budget of new trace entries, each fetched inside memory, and
memory and the general-purpose registers as before. -/
theorem run_loop_safe (max_instructions : Int) : ∀ (fuel : Nat) (s : RunState),
    (max_instructions - s.instructions_executed).toNat < fuel →
    ∃ r t, run_loop max_instructions fuel s = .ok r ∧ r.trace = s.trace ++ t ∧
      t.length ≤ (max_instructions - s.instructions_executed).toNat ∧
      r.instructions_executed = s.instructions_executed + (t.length : Nat) ∧
      (∀ e ∈ t, e.address < s.cpu.memory.length) ∧
      r.cpu.memory = s.cpu.memory ∧ r.cpu.gpr = s.cpu.gpr := by
  intro fuel
  induction fuel with
  | zero => intro s h; omega
  | succ fuel ih =>
    intro s hf
    unfold run_loop
    by_cases hg : s.instructions_executed < max_instructions
    · by_cases hr : s.cpu.RIP < s.cpu.memory.length
      · have hstep : ∃ s', run_step max_instructions s = .next s' ∧
            s'.trace = s.trace ++ [fetch_entry s.cpu.memory s.cpu.RIP] ∧
            s'.instructions_executed = s.instructions_executed + 1 ∧
            s'.cpu.memory = s.cpu.memory ∧ s'.cpu.gpr = s.cpu.gpr := by
          unfold run_step
          rw [if_pos hg, if_neg (by omega)]
          have hd : s.cpu.memory.getD s.cpu.RIP 0 = s.cpu.memory[s.cpu.RIP] := by
            simp [List.getD_eq_getElem?_getD, List.getElem?_eq_getElem hr]
          simp only [List.getElem?_eq_getElem hr, execute_fst, fetch_entry, hd]
          refine ⟨_, rfl, ?_, rfl, rfl, rfl⟩
          simp only
          rw [execute_snd _ (CPUSimulatorX86.construct 0)]
        obtain ⟨s', hs', htr, hie, hmem, hgpr⟩ := hstep
        rw [hs']
        simp only
        obtain ⟨r, t, hrun, ht, hlen, hcount, haddr, hm, hg'⟩ := ih s' (by rw [hie]; omega)
        refine ⟨r, fetch_entry s.cpu.memory s.cpu.RIP :: t, hrun, ?_, ?_, ?_, ?_, ?_, ?_⟩
        · rw [ht, htr]; simp
        · rw [hie] at hlen
          simp only [List.length_cons]
          omega
        · rw [hcount, hie]
          simp only [List.length_cons]
          push_cast
          ring
        · intro e he
          rcases List.mem_cons.mp he with h | h
          · rw [h]; exact hr
          · rw [← hmem]; exact haddr e h
        · rw [hm, hmem]
        · rw [hg', hgpr]
      · rw [run_step_break _ _ hg (by omega)]
        exact ⟨_, [], rfl, by simp, by simp, by simp, by simp, rfl, rfl⟩
    · rw [run_step_guard _ _ hg]
      exact ⟨_, [], rfl, by simp, by simp, by simp, by simp, rfl, rfl⟩

/-! ## `run` -/

theorem run_fuel_closed (fuel : Nat) (cpu : CPUSimulatorX86) (start_address : Nat)
    (max_instructions : Int) (hw : cpu.memory.length < WORD)
    (hf : max_instructions.toNat < fuel) :
    run_fuel fuel cpu start_address max_instructions
      = .ok (run_result cpu start_address max_instructions) := by
  unfold run_fuel
  rw [run_loop_closed _ _ _ (by simpa using hw) (by simpa using hf)]
  simp [loop_result, loop_count, run_result, run_count]

theorem run_closed (cpu : CPUSimulatorX86) (start_address : Nat)
    (max_instructions : Int) (hw : cpu.memory.length < WORD) :
    run cpu start_address max_instructions
      = .ok (run_result cpu start_address max_instructions) :=
  run_fuel_closed _ cpu start_address max_instructions hw (Nat.lt_succ_self _)

theorem fetch_trace_length (memory : List Nat) (start k : Nat) :
    (fetch_trace memory start k).length = k := by
  simp [fetch_trace]

theorem fetch_trace_getElem? (memory : List Nat) (start k i : Nat) (h : i < k) :
    (fetch_trace memory start k)[i]? = some (fetch_entry memory (start + i)) := by
  simp [fetch_trace, List.getElem?_map, List.getElem?_range h]

theorem fetch_trace_add (memory : List Nat) (start j k : Nat) :
    fetch_trace memory start (j + k)
      = fetch_trace memory start j ++ fetch_trace memory (start + j) k := by
  induction j generalizing start with
  | zero => simp [fetch_trace]
  | succ j ih =>
    rw [show j + 1 + k = (j + k) + 1 by omega, fetch_trace_succ, fetch_trace_succ, ih]
    simp only [List.cons_append]
    rw [show start + 1 + j = start + (j + 1) by omega]

theorem run_step_ne_outOfRange (max_instructions : Int) (s : RunState) (i : Nat) :
    run_step max_instructions s ≠ .outOfRange i := by
  by_cases hg : s.instructions_executed < max_instructions
  · by_cases hr : s.cpu.RIP < s.cpu.memory.length
    · obtain ⟨b, hb⟩ : ∃ b, s.cpu.memory[s.cpu.RIP]? = some b :=
        ⟨_, List.getElem?_eq_getElem hr⟩
      unfold run_step
      rw [if_pos hg, if_neg (by omega), hb]
      simp
    · rw [run_step_break _ _ hg (by omega)]
      simp
  · rw [run_step_guard _ _ hg]
    simp

theorem run_loop_ne_outOfRange (max_instructions : Int) : ∀ (fuel : Nat) (s : RunState)
    (i : Nat), run_loop max_instructions fuel s ≠ .outOfRange i := by
  intro fuel
  induction fuel with
  | zero => intro s i; simp [run_loop]
  | succ fuel ih =>
    intro s i
    unfold run_loop
    cases hstep : run_step max_instructions s with
    | exit s' => simp
    | next s' => exact ih s' i
    | outOfRange j => exact absurd hstep (run_step_ne_outOfRange _ _ _)

theorem run_loop_mono (max_instructions : Int) : ∀ (fuel : Nat) (s r : RunState),
    run_loop max_instructions fuel s = .ok r →
    ∀ fuel', fuel ≤ fuel' → run_loop max_instructions fuel' s = .ok r := by
  intro fuel
  induction fuel with
  | zero => intro s r h; simp [run_loop] at h
  | succ fuel ih =>
    intro s r h fuel' hle
    obtain ⟨f, rfl⟩ : ∃ f, fuel' = f + 1 := ⟨fuel' - 1, by omega⟩
    unfold run_loop at h ⊢
    cases hstep : run_step max_instructions s with
    | exit s' => rw [hstep] at h; exact h
    | next s' => rw [hstep] at h; exact ih s' r h f (by omega)
    | outOfRange j => rw [hstep] at h; simp at h

/-! ## The claims about `run` and the handler -/

/-- C3: for every memory, start address and budget, `run` terminates (with the allowance
it is given and with every larger one it returns the same final state) and invokes
the handler at most `max_instructions` times, never when `max_instructions ≤ 0`. -/
theorem run_terminates_within_budget (cpu : CPUSimulatorX86) (start_address : Nat)
    (max_instructions : Int) :
    ∃ r, run cpu start_address max_instructions = .ok r ∧
      (∀ fuel, max_instructions.toNat < fuel →
        run_fuel fuel cpu start_address max_instructions = .ok r) ∧
      r.instructions_executed = (r.trace.length : Nat) ∧
      (r.trace.length : Int) ≤ max max_instructions 0 ∧
      (max_instructions ≤ 0 → r.trace = []) := by
  obtain ⟨r, t, hrun, ht, hlen, hcount, -, -, -⟩ :=
    run_loop_safe max_instructions (max_instructions.toNat + 1)
      { cpu := { cpu with RIP := start_address }, instructions_executed := 0,
        trace := [], end_of_memory := false } (by simp)
  simp only [List.nil_append, sub_zero, zero_add] at ht hlen hcount
  subst ht
  refine ⟨r, hrun, ?_, hcount, ?_, ?_⟩
  · intro fuel hf
    exact run_loop_mono _ _ _ _ hrun fuel (by omega)
  · omega
  · intro h
    have : r.trace.length = 0 := by omega
    exact List.length_eq_zero.mp this

/-- C4: `run` never indexes memory out of range, whatever the start address, budget,
memory content and allowance; every fetch is at an address below the capacity; and
with `start_address ≥ capacity` nothing is fetched or executed and the instruction
pointer stays `start_address`. -/
theorem run_fetches_in_bounds (cpu : CPUSimulatorX86) (start_address : Nat)
    (max_instructions : Int) :
    ∃ r, run cpu start_address max_instructions = .ok r ∧
      (∀ fuel i, run_fuel fuel cpu start_address max_instructions ≠ .outOfRange i) ∧
      (∀ e ∈ r.trace, e.address < cpu.memory.length) ∧
      (cpu.memory.length ≤ start_address →
        r.trace = [] ∧ r.instructions_executed = 0 ∧ r.cpu.RIP = start_address) := by
  obtain ⟨r, t, hrun, ht, -, -, haddr, -, -⟩ :=
    run_loop_safe max_instructions (max_instructions.toNat + 1)
      { cpu := { cpu with RIP := start_address }, instructions_executed := 0,
        trace := [], end_of_memory := false } (by simp)
  simp only [List.nil_append] at ht haddr
  subst ht
  refine ⟨r, hrun, ?_, haddr, ?_⟩
  · intro fuel i
    exact run_loop_ne_outOfRange _ _ _ _
  · intro hge
    have hrun' := hrun
    unfold run_loop at hrun'
    by_cases hg : (0 : Int) < max_instructions
    · rw [run_step_break _ _ (by simpa using hg) (by simpa using hge)] at hrun'
      simp only [Outcome.ok.injEq] at hrun'
      subst hrun'
      exact ⟨rfl, rfl, rfl⟩
    · rw [run_step_guard _ _ (by simpa using hg)] at hrun'
      simp only [Outcome.ok.injEq] at hrun'
      subst hrun'
      exact ⟨rfl, rfl, rfl⟩

/-- C5: one loop evaluation at an in-bounds address `a` holding a byte `b` other than
0xEB and 0x90 continues the loop, appends the trace entry (a, b, unknown b), moves the
instruction pointer to a + 1, adds one to the instruction count and leaves memory and
the general-purpose registers as they were. -/
theorem unknown_opcode_step (max_instructions : Int) (s : RunState) (b : Nat)
    (hEB : b ≠ 0xEB) (h90 : b ≠ 0x90)
    (hg : s.instructions_executed < max_instructions)
    (hw : s.cpu.memory.length < WORD)
    (hb : s.cpu.memory[s.cpu.RIP]? = some b) :
    ∃ s', run_step max_instructions s = .next s' ∧
      s'.trace = s.trace ++ [⟨s.cpu.RIP, b, .unknown b⟩] ∧
      s'.cpu.RIP = s.cpu.RIP + 1 ∧
      s'.instructions_executed = s.instructions_executed + 1 ∧
      s'.cpu.memory = s.cpu.memory ∧
      s'.cpu.gpr = s.cpu.gpr ∧
      s'.end_of_memory = s.end_of_memory := by
  obtain ⟨hr, hget⟩ := List.getElem?_eq_some_iff.mp hb
  rw [run_step_body _ _ hg hr hw]
  refine ⟨_, rfl, ?_, rfl, rfl, rfl, rfl, rfl⟩
  have hd : s.cpu.memory.getD s.cpu.RIP 0 = b := by
    simp [List.getD_eq_getElem?_getD, hb]
  simp only [fetch_entry, hd, execute_conceptual_instruction, if_neg hEB, if_neg h90]

/-- C5, witness: memory `[0xFF]`, instruction pointer 0, budget 1; the whole run then
has the one unknown entry and stops on the budget. -/
theorem unknown_opcode_step_witness :
    (∃ s', run_step 1 ⟨{ CPUSimulatorX86.construct 1 with memory := [0xFF] }, 0, [], false⟩
        = .next s' ∧
      s'.trace = [] ++ [⟨0, 0xFF, .unknown 0xFF⟩] ∧
      s'.cpu.RIP = 0 + 1 ∧
      s'.instructions_executed = 0 + 1 ∧
      s'.cpu.memory = [0xFF] ∧
      s'.cpu.gpr = (CPUSimulatorX86.construct 1).gpr ∧
      s'.end_of_memory = false) ∧
    run { CPUSimulatorX86.construct 1 with memory := [0xFF] } 0 1
      = .ok ⟨{ CPUSimulatorX86.construct 1 with memory := [0xFF], RIP := 1 }, 1,
          [⟨0, 0xFF, .unknown 0xFF⟩], false⟩ :=
  ⟨unknown_opcode_step 1 ⟨{ CPUSimulatorX86.construct 1 with memory := [0xFF] }, 0, [], false⟩
      0xFF (by decide) (by decide) (by decide) (by simp [WORD]) (by decide),
    by decide⟩

/-- C8: decoding is a total function of the byte; it leaves the object unchanged; a byte
is reported as recognized exactly when it is 0xEB (JMP SHORT) or 0x90 (NOP); every
other value reaches the default, which records that value. -/
theorem decode_total_classification (cpu : CPUSimulatorX86) (b : Nat) :
    (execute_conceptual_instruction cpu b).1 = cpu ∧
    ((execute_conceptual_instruction cpu b).2.recognized = true ↔ (b = 0xEB ∨ b = 0x90)) ∧
    ((execute_conceptual_instruction cpu b).2 = .jmpShort ↔ b = 0xEB) ∧
    ((execute_conceptual_instruction cpu b).2 = .nop ↔ b = 0x90) ∧
    ((execute_conceptual_instruction cpu b).2 = .unknown b ↔ (b ≠ 0xEB ∧ b ≠ 0x90)) := by
  unfold execute_conceptual_instruction
  by_cases hEB : b = 0xEB
  · subst hEB
    simp [Decoded.recognized]
  · by_cases h90 : b = 0x90
    · subst h90
      simp [Decoded.recognized]
    · simp [hEB, h90, Decoded.recognized]

theorem getD_of_getElem? (memory : List Nat) (a b : Nat) (h : memory[a]? = some b) :
    memory.getD a 0 = b := by
  simp [List.getD_eq_getElem?_getD, h]

/-- C9: if memory holds 0x90 at `start_address, ..., start_address + n - 1`, all inside
memory, then `run(start_address, n)` stops on the budget (not at end of memory) after
exactly `n` instructions, the i-th trace entry is (start_address + i, 0x90, NOP), which
is a recognized one, the instruction pointer ends at `start_address + n`, and memory and
the general-purpose registers are unchanged. -/
theorem nop_program_runs_through (cpu : CPUSimulatorX86) (start_address n : Nat)
    (hw : cpu.memory.length < WORD)
    (hfit : start_address + n ≤ cpu.memory.length)
    (hnop : ∀ i, i < n → cpu.memory[start_address + i]? = some 0x90) :
    ∃ r, run cpu start_address (n : Int) = .ok r ∧
      r.end_of_memory = false ∧
      r.instructions_executed = (n : Int) ∧
      r.trace = (List.range n).map (fun i => ⟨start_address + i, 0x90, .nop⟩) ∧
      (∀ e ∈ r.trace, e.decoded.recognized = true) ∧
      r.cpu.RIP = start_address + n ∧
      r.cpu.memory = cpu.memory ∧
      r.cpu.gpr = cpu.gpr := by
  have hk : run_count cpu start_address (n : Int) = n := by
    simp only [run_count, Int.toNat_ofNat]
    omega
  have htrace : fetch_trace cpu.memory start_address n
      = (List.range n).map (fun i => (⟨start_address + i, 0x90, .nop⟩ : TraceEntry)) := by
    unfold fetch_trace
    apply List.map_congr_left
    intro i hi
    have hi' : i < n := List.mem_range.mp hi
    simp only [fetch_entry, getD_of_getElem? _ _ _ (hnop i hi')]
    rfl
  refine ⟨_, run_closed cpu start_address n hw, ?_, ?_, ?_, ?_, ?_, rfl, rfl⟩
  · simp only [run_result, Int.toNat_ofNat, decide_eq_false_iff_not]
    omega
  · simp only [run_result, hk]
  · simp only [run_result, hk, htrace]
  · intro e he
    simp only [run_result, hk, htrace, List.mem_map] at he
    obtain ⟨i, -, rfl⟩ := he
    rfl
  · simp only [run_result, hk]

/-- C9, witness: memory `[0x90]`, start address 0, budget 1. -/
theorem nop_program_runs_through_witness :
    ∃ r, run { CPUSimulatorX86.construct 1 with memory := [0x90] } 0 ((1 : Nat) : Int) = .ok r ∧
      r.end_of_memory = false ∧
      r.instructions_executed = ((1 : Nat) : Int) ∧
      r.trace = (List.range 1).map (fun i => ⟨0 + i, 0x90, .nop⟩) ∧
      (∀ e ∈ r.trace, e.decoded.recognized = true) ∧
      r.cpu.RIP = 0 + 1 ∧
      r.cpu.memory = [0x90] ∧
      r.cpu.gpr = (CPUSimulatorX86.construct 1).gpr :=
  nop_program_runs_through { CPUSimulatorX86.construct 1 with memory := [0x90] } 0 1
    (by simp [WORD]) (by decide) (by decide)

/-- C10: with `c` the capacity and `k = spec_count c s n`, `run(s, n)` invokes the handler
exactly `k` times, the i-th time on the byte fetched at address `s + i`, ends with the
instruction pointer at `s + k`, and leaves memory and the general-purpose registers
unchanged, whatever bytes the memory holds. -/
theorem run_closed_form (cpu : CPUSimulatorX86) (s : Nat) (n : Int)
    (hw : cpu.memory.length < WORD) :
    ∃ r, run cpu s n = .ok r ∧
      r.trace.length = spec_count cpu.memory.length s n ∧
      r.instructions_executed = (spec_count cpu.memory.length s n : Nat) ∧
      (∀ i, i < spec_count cpu.memory.length s n →
        ∃ b, cpu.memory[s + i]? = some b ∧
          r.trace[i]? = some ⟨s + i, b, (execute_conceptual_instruction cpu b).2⟩) ∧
      r.cpu.RIP = s + spec_count cpu.memory.length s n ∧
      r.cpu.memory = cpu.memory ∧
      r.cpu.gpr = cpu.gpr := by
  have hk : run_count cpu s n = spec_count cpu.memory.length s n := by
    unfold run_count spec_count
    split_ifs with h
    · congr 1
      omega
    · omega
  refine ⟨_, run_closed cpu s n hw, ?_, ?_, ?_, ?_, rfl, rfl⟩
  · simp only [run_result, fetch_trace_length, hk]
  · simp only [run_result, hk]
  · intro i hi
    have hlt : s + i < cpu.memory.length := by
      unfold spec_count at hi
      split_ifs at hi <;> omega
    refine ⟨cpu.memory[s + i], List.getElem?_eq_getElem hlt, ?_⟩
    simp only [run_result, hk, fetch_trace_getElem? _ _ _ _ hi, fetch_entry,
      getD_of_getElem? _ _ _ (List.getElem?_eq_getElem hlt)]
    rw [execute_snd cpu (CPUSimulatorX86.construct 0)]
  · simp only [run_result, hk]

/-- C10, witness: memory `[0xEB, 0xFE, 0x90]`, start address 1, budget 5. -/
theorem run_closed_form_witness :
    ∃ r, run { CPUSimulatorX86.construct 3 with memory := [0xEB, 0xFE, 0x90] } 1 5 = .ok r ∧
      r.trace.length = spec_count 3 1 5 ∧
      r.instructions_executed = (spec_count 3 1 5 : Nat) ∧
      (∀ i, i < spec_count 3 1 5 →
        ∃ b, [0xEB, 0xFE, 0x90][1 + i]? = some b ∧
          r.trace[i]? = some ⟨1 + i, b, (execute_conceptual_instruction
            { CPUSimulatorX86.construct 3 with memory := [0xEB, 0xFE, 0x90] } b).2⟩) ∧
      r.cpu.RIP = 1 + spec_count 3 1 5 ∧
      r.cpu.memory = [0xEB, 0xFE, 0x90] ∧
      r.cpu.gpr = (CPUSimulatorX86.construct 3).gpr :=
  run_closed_form { CPUSimulatorX86.construct 3 with memory := [0xEB, 0xFE, 0x90] } 1 5
    (by simp [WORD])

theorem run_count_eq_spec_count (cpu : CPUSimulatorX86) (s : Nat) (n : Int) :
    run_count cpu s n = spec_count cpu.memory.length s n := by
  unfold run_count spec_count
  split_ifs with h
  · congr 1
    omega
  · omega

/-- C7: for budgets `a ≥ 0` and `b ≥ 0`, `run(start, a)` followed by `run(r, b)`, with `r`
the instruction pointer the first call left, ends in the same object (instruction
pointer, general-purpose registers, memory) as `run(start, a + b)`, and the two traces
concatenated are the trace of the single call. Neither call reinitializes anything: after
the first and after the second call memory and the general-purpose registers are those
of the object the first call started from, the first call executes
`spec_count c start a` instructions and leaves the instruction pointer that far beyond
`start`, and the second executes `spec_count c r b` more from there. -/
theorem run_resume (cpu : CPUSimulatorX86) (start_address : Nat) (a b : Int)
    (hw : cpu.memory.length < WORD) (ha : 0 ≤ a) (hb : 0 ≤ b) :
    ∃ r1 r2 r, run cpu start_address a = .ok r1 ∧
      run r1.cpu r1.cpu.RIP b = .ok r2 ∧
      run cpu start_address (a + b) = .ok r ∧
      r.cpu = r2.cpu ∧
      r.trace = r1.trace ++ r2.trace ∧
      r1.cpu.memory = cpu.memory ∧ r1.cpu.gpr = cpu.gpr ∧
      r2.cpu.memory = cpu.memory ∧ r2.cpu.gpr = cpu.gpr ∧
      r1.cpu.RIP = start_address + spec_count cpu.memory.length start_address a ∧
      r2.cpu.RIP = r1.cpu.RIP + spec_count cpu.memory.length r1.cpu.RIP b ∧
      r.cpu.RIP = start_address + spec_count cpu.memory.length start_address (a + b) ∧
      r1.trace = fetch_trace cpu.memory start_address
        (spec_count cpu.memory.length start_address a) ∧
      r2.trace = fetch_trace cpu.memory r1.cpu.RIP
        (spec_count cpu.memory.length r1.cpu.RIP b) := by
  have hk : run_count cpu start_address (a + b)
      = run_count cpu start_address a
        + run_count (run_result cpu start_address a).cpu
            (run_result cpu start_address a).cpu.RIP b := by
    simp only [run_count, run_result]
    omega
  have h1 := run_count_eq_spec_count cpu start_address a
  have h2 : run_count (run_result cpu start_address a).cpu
        (run_result cpu start_address a).cpu.RIP b
      = spec_count cpu.memory.length (run_result cpu start_address a).cpu.RIP b :=
    run_count_eq_spec_count (run_result cpu start_address a).cpu
      (run_result cpu start_address a).cpu.RIP b
  have h3 := run_count_eq_spec_count cpu start_address (a + b)
  refine ⟨_, _, _, run_closed cpu start_address a hw, run_closed _ _ b ?_,
    run_closed cpu start_address (a + b) hw, ?_, ?_, rfl, rfl, rfl, rfl, ?_, ?_, ?_, ?_, ?_⟩
  · simpa [run_result] using hw
  · simp only [run_result, hk]
    congr 1
    omega
  · simp only [run_result, hk, fetch_trace_add]
  · simp only [run_result, h1]
  · rw [← h2]
    rfl
  · simp only [run_result, h3]
  · simp only [run_result, h1]
  · rw [← h2]
    rfl

/-- C7, witness: registers RIP = 7, RAX..RSP = 11, 12, 13, 14, 15, 16, 17, 18, memory
`[0xEB, 0xFE, 0x90, 0x00, 0x90]`, start address 1, budgets 1 and 2: the first call stops
at address 2, the second at address 4, as does the single call with budget 3, and the
registers and memory are the initial ones throughout. -/
theorem run_resume_witness :
    ∃ r1 r2 r,
      run ⟨7, 11, 12, 13, 14, 15, 16, 17, 18, [0xEB, 0xFE, 0x90, 0x00, 0x90]⟩ 1 1 = .ok r1 ∧
      run r1.cpu r1.cpu.RIP 2 = .ok r2 ∧
      run ⟨7, 11, 12, 13, 14, 15, 16, 17, 18, [0xEB, 0xFE, 0x90, 0x00, 0x90]⟩ 1 (1 + 2)
        = .ok r ∧
      r.cpu = r2.cpu ∧
      r.trace = r1.trace ++ r2.trace ∧
      r1.cpu.memory = [0xEB, 0xFE, 0x90, 0x00, 0x90] ∧
      r1.cpu.gpr = [11, 12, 13, 14, 15, 16, 17, 18] ∧
      r2.cpu.memory = [0xEB, 0xFE, 0x90, 0x00, 0x90] ∧
      r2.cpu.gpr = [11, 12, 13, 14, 15, 16, 17, 18] ∧
      r1.cpu.RIP = 1 + spec_count 5 1 1 ∧
      r2.cpu.RIP = r1.cpu.RIP + spec_count 5 r1.cpu.RIP 2 ∧
      r.cpu.RIP = 1 + spec_count 5 1 (1 + 2) ∧
      r1.trace = fetch_trace [0xEB, 0xFE, 0x90, 0x00, 0x90] 1 (spec_count 5 1 1) ∧
      r2.trace = fetch_trace [0xEB, 0xFE, 0x90, 0x00, 0x90] r1.cpu.RIP
        (spec_count 5 r1.cpu.RIP 2) :=
  run_resume ⟨7, 11, 12, 13, 14, 15, 16, 17, 18, [0xEB, 0xFE, 0x90, 0x00, 0x90]⟩ 1 1 2
    (by simp [WORD]) (by decide) (by decide)

/-! ## `load_into_memory` -/

theorem construct_memory_length (memory_size : Nat) :
    (CPUSimulatorX86.construct memory_size).memory.length = memory_size := by
  simp [CPUSimulatorX86.construct]

theorem load_loop_in_range (address : Nat) : ∀ (data : List Nat) (i : Nat) (memory : List Nat),
    memory.length < WORD → address + i + data.length ≤ memory.length →
    ∃ m, load_loop address data i memory = .ok m ∧ m.length = memory.length ∧
      (∀ j, j < data.length → m[address + i + j]? = data[j]?) ∧
      (∀ p, p < address + i ∨ address + i + data.length ≤ p → m[p]? = memory[p]?) := by
  intro data
  induction data with
  | nil =>
    intro i memory _ _
    exact ⟨memory, rfl, rfl, by simp, by simp⟩
  | cons d rest ih =>
    intro i memory hw hfit
    simp only [List.length_cons] at hfit
    have hidx : (address + i) % WORD = address + i := Nat.mod_eq_of_lt (by omega)
    unfold load_loop
    simp only [hidx]
    rw [if_pos (by omega)]
    obtain ⟨m, hm, hlen, hin, hout⟩ := ih (i + 1) (memory.set (address + i) d)
      (by simpa using hw) (by simp only [List.length_set]; omega)
    refine ⟨m, hm, by simpa using hlen, ?_, ?_⟩
    · intro j hj
      cases j with
      | zero =>
        rw [Nat.add_zero, hout (address + i) (Or.inl (by omega))]
        simp only [List.getElem?_cons_zero]
        exact List.getElem?_set_self (by omega)
      | succ j =>
        simp only [List.length_cons] at hj
        rw [show address + i + (j + 1) = address + (i + 1) + j by omega, hin j (by omega)]
        simp
    · intro p hp
      simp only [List.length_cons] at hp
      rw [hout p (by omega)]
      exact List.getElem?_set_ne (by omega)

theorem load_wrapped (cpu : CPUSimulatorX86) (d : Nat) (rest : List Nat) (address : Nat)
    (hrej : load_rejects cpu (d :: rest) address = false)
    (hout : cpu.memory.length ≤ address % WORD) :
    load_into_memory cpu (d :: rest) address = .outOfRange (address % WORD) := by
  unfold load_into_memory
  rw [hrej]
  unfold load_loop
  simp only [Nat.add_zero]
  rw [if_neg (Nat.not_lt.mpr hout)]
  simp

/-- The contract of `load_into_memory` on requests whose sum `address + data.size()`
does not wrap: rejected, object untouched, exactly when the sum exceeds the capacity;
otherwise accepted with every byte stored and every other byte kept. -/
theorem load_contract_no_wrap (cpu : CPUSimulatorX86) (data : List Nat) (address : Nat)
    (hw : cpu.memory.length < WORD) (hs : address + data.length < WORD) :
    (cpu.memory.length < address + data.length →
      load_into_memory cpu data address = .ok (false, cpu)) ∧
    (address + data.length ≤ cpu.memory.length →
      ∃ m, load_into_memory cpu data address = .ok (true, { cpu with memory := m }) ∧
        m.length = cpu.memory.length ∧
        (∀ j, j < data.length → m[address + j]? = data[j]?) ∧
        (∀ p, p < address ∨ address + data.length ≤ p → m[p]? = cpu.memory[p]?)) := by
  have hsum : (address + data.length) % WORD = address + data.length := Nat.mod_eq_of_lt hs
  constructor
  · intro h
    have : load_rejects cpu data address = true := by
      simp only [load_rejects, hsum, Bool.or_eq_true, decide_eq_true_eq]
      exact Or.inr h
    simp only [load_into_memory, this, if_true]
  · intro h
    have : load_rejects cpu data address = false := by
      simp only [load_rejects, hsum, Bool.or_eq_false_iff, decide_eq_false_iff_not]
      omega
    obtain ⟨m, hm, hlen, hin, hout⟩ :=
      load_loop_in_range address data 0 cpu.memory hw (by omega)
    refine ⟨m, ?_, hlen, by simpa using hin, by simpa using hout⟩
    simp only [load_into_memory, this, hm]
    rfl

/-- The scenario of `main`: a 512-byte boot sector does not fit at 0x7C00 in 8192 bytes;
the load is rejected and the object is untouched. -/
theorem load_boot_sector_rejected (data : List Nat) (h : data.length = 512) :
    load_into_memory (CPUSimulatorX86.construct 0x2000) data 0x7C00
      = .ok (false, CPUSimulatorX86.construct 0x2000) := by
  have hlen : (CPUSimulatorX86.construct 0x2000).memory.length = 0x2000 :=
    construct_memory_length _
  exact (load_contract_no_wrap _ data 0x7C00 (by rw [hlen]; simp [WORD])
    (by rw [h]; simp [WORD])).1 (by rw [hlen, h]; decide)

/-- C1: with capacity 8192, the one byte `[0x90]` and address `2^64 - 1`, the true sum
`2^64` exceeds the capacity, yet the guard of `load_into_memory` does not reject (the
sum wrapped to 0) and the copy loop indexes memory at `2^64 - 1`. -/
theorem load_accepts_wrapped_sum :
    (CPUSimulatorX86.construct 8192).memory.length < (2 ^ 64 - 1) + [0x90].length ∧
    load_rejects (CPUSimulatorX86.construct 8192) [0x90] (2 ^ 64 - 1) = false ∧
    load_into_memory (CPUSimulatorX86.construct 8192) [0x90] (2 ^ 64 - 1)
      = .outOfRange (2 ^ 64 - 1) := by
  have hlen : (CPUSimulatorX86.construct 8192).memory.length = 8192 :=
    construct_memory_length _
  have hrej : load_rejects (CPUSimulatorX86.construct 8192) [0x90] (2 ^ 64 - 1) = false := by
    simp [load_rejects, hlen, WORD]
  refine ⟨by rw [hlen]; decide, hrej, ?_⟩
  exact load_wrapped _ _ _ _ hrej (by rw [hlen]; simp [WORD])

/-- C2: with capacity 8192, the bytes `[0xAA, 0xBB]` and address `2^64 - 1`, the call
neither reports failure with memory untouched nor completes a store of both bytes: it
passes the guard and indexes memory at `2^64 - 1`, outside the vector. -/
theorem load_not_all_or_nothing :
    load_into_memory (CPUSimulatorX86.construct 8192) [0xAA, 0xBB] (2 ^ 64 - 1)
      = .outOfRange (2 ^ 64 - 1) ∧
    ∀ (reported : Bool) (cpu : CPUSimulatorX86),
      load_into_memory (CPUSimulatorX86.construct 8192) [0xAA, 0xBB] (2 ^ 64 - 1)
        ≠ .ok (reported, cpu) := by
  have hlen : (CPUSimulatorX86.construct 8192).memory.length = 8192 :=
    construct_memory_length _
  have hrej : load_rejects (CPUSimulatorX86.construct 8192) [0xAA, 0xBB] (2 ^ 64 - 1)
      = false := by
    simp [load_rejects, hlen, WORD]
  have h : load_into_memory (CPUSimulatorX86.construct 8192) [0xAA, 0xBB] (2 ^ 64 - 1)
      = .outOfRange (2 ^ 64 - 1) :=
    load_wrapped _ _ _ _ hrej (by rw [hlen]; simp [WORD])
  refine ⟨h, ?_⟩
  intro reported cpu
  rw [h]
  simp

/-! ## The scenario `[0xEB, 0xFE]` at address 0, capacity 8192, budget 50 -/

theorem load_jmp_self :
    ∃ m, load_into_memory (CPUSimulatorX86.construct 8192) [0xEB, 0xFE] 0
        = .ok (true, { CPUSimulatorX86.construct 8192 with memory := m }) ∧
      m.length = 8192 ∧ m[0]? = some 0xEB ∧ m[1]? = some 0xFE ∧
      ∀ p, 2 ≤ p → p < 8192 → m[p]? = some 0 := by
  have hlen : (CPUSimulatorX86.construct 8192).memory.length = 8192 :=
    construct_memory_length _
  obtain ⟨m, hm, hl, hin, hout⟩ :=
    (load_contract_no_wrap (CPUSimulatorX86.construct 8192) [0xEB, 0xFE] 0
      (by rw [hlen]; simp [WORD]) (by simp [WORD])).2 (by rw [hlen]; decide)
  refine ⟨m, hm, by rw [hl, hlen], ?_, ?_, ?_⟩
  · simpa using hin 0 (by decide)
  · simpa using hin 1 (by decide)
  · intro p h2 hp
    rw [hout p (Or.inr (by simpa using h2))]
    exact List.getElem?_replicate_of_lt hp

theorem run_jmp_self (cpu : CPUSimulatorX86) (hl : cpu.memory.length = 8192)
    (h0 : cpu.memory[0]? = some 0xEB) (h1 : cpu.memory[1]? = some 0xFE)
    (hz : ∀ p, 2 ≤ p → p < 8192 → cpu.memory[p]? = some 0) :
    ∃ r, run cpu 0 50 = .ok r ∧ r.end_of_memory = false ∧ r.instructions_executed = 50 ∧
      r.trace.length = 50 ∧
      r.trace[0]? = some ⟨0, 0xEB, .jmpShort⟩ ∧
      r.trace[1]? = some ⟨1, 0xFE, .unknown 0xFE⟩ ∧
      (∀ j, 2 ≤ j → j < 50 → r.trace[j]? = some ⟨j, 0, .unknown 0⟩) ∧
      r.cpu.RIP = 50 ∧ r.cpu.memory = cpu.memory ∧ r.cpu.gpr = cpu.gpr := by
  have hk : run_count cpu 0 50 = 50 := by
    simp only [run_count, hl]
    decide
  refine ⟨_, run_closed cpu 0 50 (by rw [hl]; simp [WORD]), ?_, ?_, ?_, ?_, ?_, ?_, ?_,
    rfl, rfl⟩
  · simp only [run_result, hl]
    decide
  · simp only [run_result, hk]
    rfl
  · simp only [run_result, hk, fetch_trace_length]
  · simp only [run_result, hk]
    rw [fetch_trace_getElem? _ _ _ _ (by decide)]
    simp only [fetch_entry, Nat.add_zero, getD_of_getElem? _ _ _ h0]
    rfl
  · simp only [run_result, hk]
    rw [fetch_trace_getElem? _ _ _ _ (by decide)]
    simp only [fetch_entry, Nat.zero_add, getD_of_getElem? _ _ _ h1]
    rfl
  · intro j h2 hj
    simp only [run_result, hk]
    rw [fetch_trace_getElem? _ _ _ _ hj]
    simp only [fetch_entry, Nat.zero_add, getD_of_getElem? _ _ _ (hz j h2 (by omega))]
    rfl
  · simp only [run_result, hk]

/-- C6, as the code behaves: with capacity 8192, `[0xEB, 0xFE]` loaded at address 0 and
`run(0, 50)`, the run stops on the budget after exactly 50 handler invocations; the
0xEB handler only reports the byte and leaves the instruction pointer alone, so the
fetches are at the consecutive addresses 0, 1, ..., 49 (0xEB recognized at 0, then 0xFE
and the zero bytes as unknown) and the instruction pointer ends at 50. -/
theorem jmp_short_falls_through :
    ∃ cpu r, load_into_memory (CPUSimulatorX86.construct 8192) [0xEB, 0xFE] 0
        = .ok (true, cpu) ∧
      run cpu 0 50 = .ok r ∧ r.end_of_memory = false ∧ r.instructions_executed = 50 ∧
      r.trace.length = 50 ∧
      r.trace[0]? = some ⟨0, 0xEB, .jmpShort⟩ ∧
      r.trace[1]? = some ⟨1, 0xFE, .unknown 0xFE⟩ ∧
      (∀ j, 2 ≤ j → j < 50 → r.trace[j]? = some ⟨j, 0, .unknown 0⟩) ∧
      r.cpu.RIP = 50 := by
  obtain ⟨m, hload, hl, h0, h1, hz⟩ := load_jmp_self
  obtain ⟨r, hrun, hend, hcount, hlen, ht0, ht1, htz, hrip, -, -⟩ :=
    run_jmp_self { CPUSimulatorX86.construct 8192 with memory := m } hl h0 h1 hz
  exact ⟨_, r, hload, hrun, hend, hcount, hlen, ht0, ht1, htz, hrip⟩

/-- C6, as stated, fails: after loading `[0xEB, 0xFE]` at 0 with capacity 8192, `run(0, 50)`
does not end with the instruction pointer at 0 having fetched 0xEB at address 0 every
time. -/
theorem jmp_short_does_not_jump :
    ¬ ∃ cpu r, load_into_memory (CPUSimulatorX86.construct 8192) [0xEB, 0xFE] 0
        = .ok (true, cpu) ∧
      run cpu 0 50 = .ok r ∧ r.trace.length = 50 ∧ r.cpu.RIP = 0 ∧
      ∀ e ∈ r.trace, e.address = 0 ∧ e.opcode = 0xEB := by
  rintro ⟨cpu, r, hload, hrun, -, hrip, -⟩
  obtain ⟨m, hload', hl, h0, h1, hz⟩ := load_jmp_self
  rw [hload'] at hload
  simp only [Outcome.ok.injEq, Prod.mk.injEq, true_and] at hload
  subst hload
  obtain ⟨r', hrun', -, -, -, -, -, -, hrip', -, -⟩ :=
    run_jmp_self { CPUSimulatorX86.construct 8192 with memory := m } hl h0 h1 hz
  rw [hrun'] at hrun
  simp only [Outcome.ok.injEq] at hrun
  subst hrun
  rw [hrip'] at hrip
  exact absurd hrip (by decide)

end CPUSim
